import Mathlib

/-!
Verification of the `idna_mapping` crate (`src/lib.rs`).

The crate provides:
* a compact range-table lookup `find_char` over a generated table
  (`TABLE` / `MAPPING_TABLE` / `STRING_TABLE`, produced at build time and
  included via `include!`, hence not part of the crate's source tree);
* `decode_slice`, resolving a `StringTableSlice` to replacement text;
* `Mapper`, a lazy iterator adapter applying the UTS 46 mapping with an
  `ignored_as_errors` flag;
* joining-type masks (`joining_type_to_mask`, `JoiningTypeMask.intersects`),
  delegating the per-codepoint classification to the external
  `unicode_joining_type` crate.

Since the generated tables are data, not source, all table-dependent
definitions are parameterized by a `Tables` structure, and the `Mapper` is
parameterized by the composed lookup function (`find_char` followed by
`decode_slice`), so every theorem about it holds for whatever tables the
build produces, under the documented table-construction invariants.

Machine integers are modelled as `Nat` with explicit `% 2 ^ w` where the
source performs `u16` arithmetic that could wrap; `usize` indexing that can
panic in Rust is modelled with `Option` (`none` = panic).
-/

/-- `struct StringTableSlice` from `src/lib.rs`: a byte-range reference into
the shared string table, with the start split into low/high bytes.  The
fields are `u8` in the source; they are modelled as `Nat` (the decoding
arithmetic below is exactly the source's, which cannot overflow `usize`). -/
structure StringTableSlice where
  byte_start_lo : Nat
  byte_start_hi : Nat
  byte_len : Nat
deriving DecidableEq, Repr

/-- The dispositions of `enum Mapping` in `src/lib.rs`.  `Mapped` carries a
`StringTableSlice` into the shared string table. -/
inductive Mapping where
  | Valid : Mapping
  | Ignored : Mapping
  | Mapped : StringTableSlice → Mapping
  | Disallowed : Mapping
deriving DecidableEq, Repr

/-- The generated static tables that `src/lib.rs` pulls in with
`include!("uts46_mapping_table.rs")`: the sorted range index `TABLE`
(base codepoint, packed `u16` value), the mapping-entry array
`MAPPING_TABLE`, and the shared replacement-text table `STRING_TABLE`
(a `&str`, modelled as its character sequence; byte offsets are recovered
from UTF-8 sizes). -/
structure Tables where
  TABLE : List (Char × Nat)
  MAPPING_TABLE : List Mapping
  STRING_TABLE : List Char

/-- `SINGLE_MARKER` from `find_char`: `1 << 15`. -/
def SINGLE_MARKER : Nat := 1 <<< 15

/-- The keys of the range index, i.e. the base codepoints searched by
`TABLE.binary_search_by_key(&codepoint, |&val| val.0)`. -/
def bases (t : Tables) : List Char := t.TABLE.map Prod.fst

/-- Core loop of `slice::binary_search_by_key` as used by `find_char`:
classic two-pointer binary search with `mid = left + (right - left) / 2`,
comparing the key at `mid` against the probe.  `Except.ok i` is Rust's
`Ok(i)` (exact hit), `Except.error i` is `Err(i)` (insertion point).
The structural `fuel` argument only bounds the recursion; whenever
`fuel ≥ right - left` (always true at the call site below, because the
interval shrinks strictly each iteration) the fuel case is unreachable
except when the interval is already empty, where it coincides with the
loop's exit. -/
def binSearchGo (keys : List Char) (c : Char) : Nat → Nat → Nat → Except Nat Nat
  | 0, left, _ => .error left
  | fuel + 1, left, right =>
    if left < right then
      let mid := left + (right - left) / 2
      let k := keys.getD mid '\x00'
      if k < c then binSearchGo keys c fuel (mid + 1) right
      else if c < k then binSearchGo keys c fuel left mid
      else .ok mid
    else .error left

/-- `binary_search_by_key` over the base-codepoint keys, started on the full
index range as in `find_char`. -/
def binarySearchBases (t : Tables) (c : Char) : Except Nat Nat :=
  binSearchGo (bases t) c (bases t).length 0 (bases t).length

/-- Second half of `find_char`: index the range entry at `idx`, decode the
packed value (`single` flag = top bit, `offset` = low 15 bits) and select
the mapping entry, with the source's `u16` arithmetic
`offset + (codepoint as u16 - base as u16)` modelled as wrapping
(`% 2 ^ 16`).  Out-of-bounds indexing, a panic in Rust, is `none`. -/
def lookupAt (t : Tables) (c : Char) (idx : Nat) : Option Mapping := do
  let e ← t.TABLE.get? idx
  let x := e.2
  let offset := 32767 &&& x
  if SINGLE_MARKER &&& x ≠ 0 then
    t.MAPPING_TABLE.get? offset
  else
    t.MAPPING_TABLE.get?
      ((offset + (c.toNat % 65536 + 65536 - e.1.toNat % 65536) % 65536) % 65536)

/-- `fn find_char(codepoint: char) -> &'static Mapping` from `src/lib.rs`,
over explicit tables.  An `Err(0)` binary-search result makes `idx - 1`
underflow `usize` (a panic on the subtraction or on the subsequent huge
index), modelled as `none`; with the generated tables the invariant that
the index starts at codepoint 0 rules this out. -/
def find_char (t : Tables) (c : Char) : Option Mapping :=
  match binarySearchBases t c with
  | .ok idx => lookupAt t c idx
  | .error 0 => none
  | .error (idx + 1) => lookupAt t c idx

/-- UTF-8 byte length of a character sequence; for the Lean model of the
Rust `&str` string table this is exactly `str::len`. -/
def utf8Len (s : List Char) : Nat := (s.map Char.utf8Size).sum

/-- Skip exactly `n` UTF-8 bytes from the front of a string, returning the
remainder; `none` when `n` overruns the string or falls inside a character
(the conditions under which Rust's `&s[n..]` would panic). -/
def dropBytes : List Char → Nat → Option (List Char)
  | cs, 0 => some cs
  | [], _ => none
  | c :: cs, n => if c.utf8Size ≤ n then dropBytes cs (n - c.utf8Size) else none

/-- Take exactly `n` UTF-8 bytes from the front of a string; `none` when `n`
overruns the string or falls inside a character. -/
def takeBytes : List Char → Nat → Option (List Char)
  | _, 0 => some []
  | [], _ => none
  | c :: cs, n =>
    if c.utf8Size ≤ n then (takeBytes cs (n - c.utf8Size)).map (c :: ·) else none

/-- `fn decode_slice(slice: &StringTableSlice) -> &'static str` from
`src/lib.rs`: reconstruct `start = (hi << 8) | lo` and slice
`STRING_TABLE[start..start + len]`.  The Rust slicing panics on
out-of-bounds or non-character-boundary indices; that is `none` here. -/
def decode_slice (t : Tables) (slice : StringTableSlice) : Option (List Char) :=
  let start := (slice.byte_start_hi <<< 8) ||| slice.byte_start_lo
  (dropBytes t.STRING_TABLE start).bind (fun rest => takeBytes rest slice.byte_len)

/-- The fast-path test in `Mapper::next`:
`if let '.' | '-' | 'a'..='z' | '0'..='9' = codepoint`. -/
def fastPath (c : Char) : Bool :=
  c = '.' || c = '-' || ('a' ≤ c && c ≤ 'z') || ('0' ≤ c && c ≤ '9')

/-- A mapping disposition with its replacement text already decoded: the
composition of `find_char` and `decode_slice` on the generated tables.
The `Mapper` is parameterized over a function producing these, because the
generated table data is a build-time artifact outside the crate's source;
every `Mapper` theorem therefore holds for arbitrary table contents. -/
inductive Disposition where
  | Valid : Disposition
  | Ignored : Disposition
  | Mapped : List Char → Disposition
  | Disallowed : Disposition
deriving DecidableEq, Repr

/-- `struct Mapper` from `src/lib.rs`: the remaining source characters (the
`chars: I` iterator), the pending replacement-text cursor
(`slice: Option<Chars<'static>>`, as its remaining characters), and the
`ignored_as_errors` flag. -/
structure Mapper where
  chars : List Char
  slice : Option (List Char)
  ignored_as_errors : Bool
deriving DecidableEq, Repr

/-- `Mapper::new(delegate, ignored_as_errors)`. -/
def Mapper.new (delegate : List Char) (iae : Bool) : Mapper :=
  { chars := delegate, slice := none, ignored_as_errors := iae }

/-- The tail of `Mapper::next`'s loop body, entered once the pending
replacement (if any) is exhausted: pull the next input codepoint, take the
fast path, or branch on its disposition.  `Ignored` without
`ignored_as_errors` and an empty `Mapped` replacement re-enter the loop,
hence the recursion on the remaining input. -/
def Mapper.pull (lookup : Char → Disposition) (iae : Bool) :
    List Char → Option (Char × Mapper)
  | [] => none
  | c :: cs =>
    if fastPath c then some (c, ⟨cs, none, iae⟩)
    else
      match lookup c with
      | .Valid => some (c, ⟨cs, none, iae⟩)
      | .Ignored =>
        if iae then some ('�', ⟨cs, none, iae⟩) else Mapper.pull lookup iae cs
      | .Mapped s =>
        match s with
        | a :: rest => some (a, ⟨cs, some rest, iae⟩)
        | [] => Mapper.pull lookup iae cs
      | .Disallowed => some ('�', ⟨cs, none, iae⟩)

/-- `<Mapper as Iterator>::next`: drain the pending replacement first (one
character per call, clearing it when exhausted), then fall through to
`Mapper.pull`.  Returns the emitted character and the successor state. -/
def Mapper.next (lookup : Char → Disposition) : Mapper → Option (Char × Mapper)
  | ⟨chars, some (a :: rest), iae⟩ => some (a, ⟨chars, some rest, iae⟩)
  | ⟨chars, some [], iae⟩ => Mapper.pull lookup iae chars
  | ⟨chars, none, iae⟩ => Mapper.pull lookup iae chars

/-- Size of the pending-replacement cursor, for the termination measure of
collecting the iterator. -/
def sliceLen : Option (List Char) → Nat
  | none => 0
  | some l => l.length + 1

theorem Mapper.pull_chars_lt (lookup : Char → Disposition) (iae : Bool)
    (chars : List Char) (a : Char) (m : Mapper)
    (h : Mapper.pull lookup iae chars = some (a, m)) :
    m.chars.length < chars.length := by
  induction chars generalizing a m with
  | nil => simp [Mapper.pull] at h
  | cons c cs ih =>
    rw [Mapper.pull] at h
    by_cases hf : fastPath c
    · rw [if_pos hf] at h
      simp only [Option.some.injEq, Prod.mk.injEq] at h
      obtain ⟨-, rfl⟩ := h
      simp
    · rw [if_neg hf] at h
      cases hl : lookup c with
      | Valid =>
        simp only [hl, Option.some.injEq, Prod.mk.injEq] at h
        obtain ⟨-, rfl⟩ := h
        simp
      | Ignored =>
        simp only [hl] at h
        by_cases hi : iae
        · rw [if_pos hi] at h
          simp only [Option.some.injEq, Prod.mk.injEq] at h
          obtain ⟨-, rfl⟩ := h
          simp
        · rw [if_neg hi] at h
          have := ih a m h
          simp only [List.length_cons]
          omega
      | Mapped s =>
        simp only [hl] at h
        cases s with
        | cons b rest =>
          simp only [Option.some.injEq, Prod.mk.injEq] at h
          obtain ⟨-, rfl⟩ := h
          simp
        | nil =>
          simp only at h
          have := ih a m h
          simp only [List.length_cons]
          omega
      | Disallowed =>
        simp only [hl, Option.some.injEq, Prod.mk.injEq] at h
        obtain ⟨-, rfl⟩ := h
        simp

theorem Mapper.next_measure (lookup : Char → Disposition) (m : Mapper)
    (a : Char) (m' : Mapper) (h : Mapper.next lookup m = some (a, m')) :
    m'.chars.length < m.chars.length ∨
      (m'.chars = m.chars ∧ sliceLen m'.slice < sliceLen m.slice) := by
  obtain ⟨chars, slice, iae⟩ := m
  match slice with
  | some (b :: rest) =>
    rw [Mapper.next] at h
    simp only [Option.some.injEq, Prod.mk.injEq] at h
    obtain ⟨-, rfl⟩ := h
    right
    exact ⟨rfl, by simp [sliceLen]⟩
  | some [] =>
    rw [Mapper.next] at h
    exact Or.inl (Mapper.pull_chars_lt lookup iae chars a m' h)
  | none =>
    rw [Mapper.next] at h
    exact Or.inl (Mapper.pull_chars_lt lookup iae chars a m' h)

/-- Collecting the `Mapper` iterator: the full output sequence obtained by
iterating `Mapper.next` to exhaustion.  Total, because every step either
consumes an input codepoint or shrinks the pending replacement. -/
def Mapper.run (lookup : Char → Disposition) (m : Mapper) : List Char :=
  match h : Mapper.next lookup m with
  | none => []
  | some (a, m') => a :: Mapper.run lookup m'
termination_by (m.chars.length, sliceLen m.slice)
decreasing_by
  rcases Mapper.next_measure lookup m a m' h with h1 | ⟨h1, h2⟩
  · exact Prod.Lex.left _ _ h1
  · rw [h1]
    exact Prod.Lex.right _ h2

/-- The mapped output of an input sequence: `Mapper::new(input, iae)`
collected to a list. -/
def mapperOutput (lookup : Char → Disposition) (iae : Bool)
    (input : List Char) : List Char :=
  Mapper.run lookup (Mapper.new input iae)

theorem Mapper.run_eq (lookup : Char → Disposition) (m : Mapper) :
    Mapper.run lookup m =
      match Mapper.next lookup m with
      | none => []
      | some (a, m') => a :: Mapper.run lookup m' := by
  rw [Mapper.run]
  split
  next heq => rw [heq]
  next a m' heq => rw [heq]

theorem Mapper.run_congr (lookup : Char → Disposition) (m m' : Mapper)
    (h : Mapper.next lookup m = Mapper.next lookup m') :
    Mapper.run lookup m = Mapper.run lookup m' := by
  rw [Mapper.run_eq, Mapper.run_eq, h]

theorem Mapper.next_slice_nil (lookup : Char → Disposition) (chars : List Char)
    (iae : Bool) :
    Mapper.next lookup ⟨chars, some [], iae⟩ =
      Mapper.next lookup ⟨chars, none, iae⟩ := rfl

theorem Mapper.run_drain (lookup : Char → Disposition) (s chars : List Char)
    (iae : Bool) :
    Mapper.run lookup ⟨chars, some s, iae⟩ =
      s ++ Mapper.run lookup ⟨chars, none, iae⟩ := by
  induction s with
  | nil =>
    simp only [List.nil_append]
    exact Mapper.run_congr lookup _ _ (Mapper.next_slice_nil lookup chars iae)
  | cons a rest ih =>
    rw [Mapper.run_eq]
    show (match Mapper.next lookup ⟨chars, some (a :: rest), iae⟩ with
      | none => []
      | some (b, m') => b :: Mapper.run lookup m') = _
    rw [show Mapper.next lookup ⟨chars, some (a :: rest), iae⟩ =
      some (a, ⟨chars, some rest, iae⟩) from rfl]
    simp only [List.cons_append, List.cons.injEq, ih]

theorem Mapper.run_empty (lookup : Char → Disposition) (iae : Bool) :
    Mapper.run lookup ⟨[], none, iae⟩ = [] := by
  rw [Mapper.run_eq]
  rfl

theorem Mapper.run_fast (lookup : Char → Disposition) (iae : Bool)
    (c : Char) (cs : List Char) (hf : fastPath c = true) :
    Mapper.run lookup ⟨c :: cs, none, iae⟩ =
      c :: Mapper.run lookup ⟨cs, none, iae⟩ := by
  rw [Mapper.run_eq]
  rw [show Mapper.next lookup ⟨c :: cs, none, iae⟩ =
    Mapper.pull lookup iae (c :: cs) from rfl]
  rw [Mapper.pull, if_pos hf]

theorem Mapper.run_valid (lookup : Char → Disposition) (iae : Bool)
    (c : Char) (cs : List Char) (hf : fastPath c = false)
    (hl : lookup c = .Valid) :
    Mapper.run lookup ⟨c :: cs, none, iae⟩ =
      c :: Mapper.run lookup ⟨cs, none, iae⟩ := by
  rw [Mapper.run_eq]
  rw [show Mapper.next lookup ⟨c :: cs, none, iae⟩ =
    Mapper.pull lookup iae (c :: cs) from rfl]
  rw [Mapper.pull, if_neg (by simp [hf]), hl]

theorem Mapper.run_disallowed (lookup : Char → Disposition) (iae : Bool)
    (c : Char) (cs : List Char) (hf : fastPath c = false)
    (hl : lookup c = .Disallowed) :
    Mapper.run lookup ⟨c :: cs, none, iae⟩ =
      '�' :: Mapper.run lookup ⟨cs, none, iae⟩ := by
  rw [Mapper.run_eq]
  rw [show Mapper.next lookup ⟨c :: cs, none, iae⟩ =
    Mapper.pull lookup iae (c :: cs) from rfl]
  rw [Mapper.pull, if_neg (by simp [hf]), hl]

theorem Mapper.run_ignored_skipped (lookup : Char → Disposition)
    (c : Char) (cs : List Char) (hf : fastPath c = false)
    (hl : lookup c = .Ignored) :
    Mapper.run lookup ⟨c :: cs, none, false⟩ =
      Mapper.run lookup ⟨cs, none, false⟩ := by
  refine Mapper.run_congr lookup _ _ ?_
  rw [show Mapper.next lookup ⟨c :: cs, none, false⟩ =
    Mapper.pull lookup false (c :: cs) from rfl]
  rw [show Mapper.next lookup ⟨cs, none, false⟩ =
    Mapper.pull lookup false cs from rfl]
  rw [Mapper.pull, if_neg (by simp [hf]), hl]
  simp

theorem Mapper.run_ignored_error (lookup : Char → Disposition)
    (c : Char) (cs : List Char) (hf : fastPath c = false)
    (hl : lookup c = .Ignored) :
    Mapper.run lookup ⟨c :: cs, none, true⟩ =
      '�' :: Mapper.run lookup ⟨cs, none, true⟩ := by
  rw [Mapper.run_eq]
  rw [show Mapper.next lookup ⟨c :: cs, none, true⟩ =
    Mapper.pull lookup true (c :: cs) from rfl]
  rw [Mapper.pull, if_neg (by simp [hf]), hl]
  simp

theorem Mapper.run_mapped (lookup : Char → Disposition) (iae : Bool)
    (c : Char) (cs s : List Char) (hf : fastPath c = false)
    (hl : lookup c = .Mapped s) :
    Mapper.run lookup ⟨c :: cs, none, iae⟩ =
      s ++ Mapper.run lookup ⟨cs, none, iae⟩ := by
  cases s with
  | nil =>
    simp only [List.nil_append]
    refine Mapper.run_congr lookup _ _ ?_
    rw [show Mapper.next lookup ⟨c :: cs, none, iae⟩ =
      Mapper.pull lookup iae (c :: cs) from rfl]
    rw [show Mapper.next lookup ⟨cs, none, iae⟩ =
      Mapper.pull lookup iae cs from rfl]
    rw [Mapper.pull, if_neg (by simp [hf]), hl]
  | cons a rest =>
    rw [Mapper.run_eq]
    rw [show Mapper.next lookup ⟨c :: cs, none, iae⟩ =
      Mapper.pull lookup iae (c :: cs) from rfl]
    rw [Mapper.pull, if_neg (by simp [hf]), hl]
    simp only [List.cons_append, List.cons.injEq, true_and]
    exact Mapper.run_drain lookup rest cs iae

theorem mapperOutput_def (lookup : Char → Disposition) (iae : Bool)
    (input : List Char) :
    mapperOutput lookup iae input = Mapper.run lookup ⟨input, none, iae⟩ := rfl

/-- A concrete lookup function exercising every disposition, consistent with
the spec's guarantee that fast-path codepoints are Valid in the generated
table; used to instantiate the parameterized theorems on closed inputs. -/
def exLookup : Char → Disposition := fun c =>
  if fastPath c then .Valid
  else if c = 'A' then .Mapped ['a']
  else if c = 'E' then .Mapped []
  else if c = '­' then .Ignored
  else if c = 'B' then .Disallowed
  else .Valid

theorem exLookup_wf : ∀ c, fastPath c = true → exLookup c = .Valid := by
  intro c h
  simp [exLookup, h]

/-- C2: an input codepoint whose looked-up disposition is `Disallowed`
contributes exactly one U+FFFD to the output, for either value of
`ignored_as_errors`.  The hypothesis `hwf` states the table property
(fast-path codepoints look up as Valid) that ties the abstract lookup to
the generated table. -/
theorem mapper_disallowed_emits_one_replacement (lookup : Char → Disposition)
    (hwf : ∀ c, fastPath c = true → lookup c = .Valid)
    (iae : Bool) (c : Char) (cs : List Char) (h : lookup c = .Disallowed) :
    mapperOutput lookup iae (c :: cs) = '�' :: mapperOutput lookup iae cs := by
  have hf : fastPath c = false := by
    by_cases hb : fastPath c
    · rw [hwf c hb] at h
      exact absurd h (by simp)
    · simp [hb]
  simp only [mapperOutput_def]
  exact Mapper.run_disallowed lookup iae c cs hf h

theorem mapper_disallowed_witness :
    mapperOutput exLookup true ['B', 'a'] = '�' :: mapperOutput exLookup true ['a'] ∧
    mapperOutput exLookup false ['B', 'a'] = '�' :: mapperOutput exLookup false ['a'] :=
  ⟨mapper_disallowed_emits_one_replacement exLookup exLookup_wf true 'B' ['a']
      (by decide),
   mapper_disallowed_emits_one_replacement exLookup exLookup_wf false 'B' ['a']
      (by decide)⟩

/-- C3: an input codepoint whose looked-up disposition is `Ignored`
contributes nothing when `ignored_as_errors` is false, and exactly one
U+FFFD when it is true. -/
theorem mapper_ignored_flag_behavior (lookup : Char → Disposition)
    (hwf : ∀ c, fastPath c = true → lookup c = .Valid)
    (c : Char) (cs : List Char) (h : lookup c = .Ignored) :
    mapperOutput lookup false (c :: cs) = mapperOutput lookup false cs ∧
    mapperOutput lookup true (c :: cs) = '�' :: mapperOutput lookup true cs := by
  have hf : fastPath c = false := by
    by_cases hb : fastPath c
    · rw [hwf c hb] at h
      exact absurd h (by simp)
    · simp [hb]
  simp only [mapperOutput_def]
  exact ⟨Mapper.run_ignored_skipped lookup c cs hf h,
    Mapper.run_ignored_error lookup c cs hf h⟩

theorem mapper_ignored_witness :
    mapperOutput exLookup false ['­', 'a'] = mapperOutput exLookup false ['a'] ∧
    mapperOutput exLookup true ['­', 'a'] = '�' :: mapperOutput exLookup true ['a'] :=
  mapper_ignored_flag_behavior exLookup exLookup_wf '­' ['a'] (by decide)

/-- C4: an input codepoint whose looked-up disposition is `Mapped text`
contributes exactly the characters of the decoded replacement, in order,
all emitted before the next input codepoint is pulled; an empty
replacement contributes nothing. -/
theorem mapper_mapped_emits_replacement (lookup : Char → Disposition)
    (hwf : ∀ c, fastPath c = true → lookup c = .Valid)
    (iae : Bool) (c : Char) (cs s : List Char) (h : lookup c = .Mapped s) :
    mapperOutput lookup iae (c :: cs) = s ++ mapperOutput lookup iae cs := by
  have hf : fastPath c = false := by
    by_cases hb : fastPath c
    · rw [hwf c hb] at h
      exact absurd h (by simp)
    · simp [hb]
  simp only [mapperOutput_def]
  exact Mapper.run_mapped lookup iae c cs s hf h

theorem mapper_mapped_witness :
    mapperOutput exLookup false ['A', 'b'] = ['a'] ++ mapperOutput exLookup false ['b'] ∧
    mapperOutput exLookup false ['E', 'b'] = [] ++ mapperOutput exLookup false ['b'] :=
  ⟨mapper_mapped_emits_replacement exLookup exLookup_wf false 'A' ['b'] ['a']
      (by decide),
   mapper_mapped_emits_replacement exLookup exLookup_wf false 'E' ['b'] []
      (by decide)⟩

/-- C7: the output of a finite input is a finite sequence (`Mapper.run` is a
total function into lists); the iterator ends exactly when the input is
exhausted and no replacement is pending, and an empty input yields an
empty output. -/
theorem mapper_finite_termination (lookup : Char → Disposition) (iae : Bool) :
    mapperOutput lookup iae [] = [] ∧
    Mapper.next lookup ⟨[], none, iae⟩ = none ∧
    Mapper.next lookup ⟨[], some [], iae⟩ = none ∧
    ∀ chars a s, Mapper.next lookup ⟨chars, some (a :: s), iae⟩ ≠ none := by
  refine ⟨Mapper.run_empty lookup iae, rfl, rfl, ?_⟩
  intro chars a s
  simp [Mapper.next]

theorem mapper_finite_termination_witness :
    mapperOutput exLookup true [] = [] ∧
    Mapper.next exLookup ⟨['x'], some ['y'], true⟩ ≠ none :=
  ⟨(mapper_finite_termination exLookup true).1,
   (mapper_finite_termination exLookup true).2.2.2 ['x'] 'y' []⟩

/-- C8: an input consisting only of fast-path codepoints is reproduced
verbatim (for any table contents, since the fast path never consults the
lookup); hence mapping is idempotent on outputs already restricted to the
fast-path character set. -/
theorem mapper_fastpath_noop (lookup : Char → Disposition) (iae : Bool)
    (input : List Char) (h : ∀ c ∈ input, fastPath c = true) :
    mapperOutput lookup iae input = input := by
  induction input with
  | nil => exact Mapper.run_empty lookup iae
  | cons c cs ih =>
    simp only [mapperOutput_def]
    rw [Mapper.run_fast lookup iae c cs (h c (by simp))]
    have := ih (fun d hd => h d (List.mem_cons_of_mem c hd))
    simp only [mapperOutput_def] at this
    rw [this]

theorem mapper_fastpath_noop_witness :
    mapperOutput exLookup true ['a', '-', '0', '.', 'z', '9'] =
      ['a', '-', '0', '.', 'z', '9'] :=
  mapper_fastpath_noop exLookup true ['a', '-', '0', '.', 'z', '9'] (by decide)

/-- C10: on an input containing no codepoint whose looked-up disposition is
`Ignored`, the output does not depend on the `ignored_as_errors` flag
(two-run noninterference: the flag influences the output only through
Ignored codepoints). -/
theorem mapper_flag_noninterference (lookup : Char → Disposition)
    (input : List Char) (hno : ∀ c ∈ input, lookup c ≠ .Ignored) :
    mapperOutput lookup true input = mapperOutput lookup false input := by
  induction input with
  | nil =>
    rw [mapperOutput_def, mapperOutput_def, Mapper.run_empty, Mapper.run_empty]
  | cons c cs ih =>
    have ih' := ih (fun d hd => hno d (List.mem_cons_of_mem c hd))
    simp only [mapperOutput_def] at ih' ⊢
    by_cases hf : fastPath c
    · rw [Mapper.run_fast lookup true c cs hf,
        Mapper.run_fast lookup false c cs hf, ih']
    · have hf' : fastPath c = false := by simp [hf]
      cases hl : lookup c with
      | Valid =>
        rw [Mapper.run_valid lookup true c cs hf' hl,
          Mapper.run_valid lookup false c cs hf' hl, ih']
      | Ignored => exact absurd hl (hno c (by simp))
      | Mapped s =>
        rw [Mapper.run_mapped lookup true c cs s hf' hl,
          Mapper.run_mapped lookup false c cs s hf' hl, ih']
      | Disallowed =>
        rw [Mapper.run_disallowed lookup true c cs hf' hl,
          Mapper.run_disallowed lookup false c cs hf' hl, ih']

theorem mapper_flag_noninterference_witness :
    mapperOutput exLookup true ['A', 'B', 'c', '.'] =
      mapperOutput exLookup false ['A', 'B', 'c', '.'] :=
  mapper_flag_noninterference exLookup ['A', 'B', 'c', '.'] (by decide)

theorem char_le_iff (a b : Char) : a ≤ b ↔ a.toNat ≤ b.toNat := Iff.rfl

theorem char_lt_iff (a b : Char) : a < b ↔ a.toNat < b.toNat := Iff.rfl

theorem not_char_lt_zero (c : Char) : ¬ (c < '\x00') := by
  rw [char_lt_iff]
  have h0 : ('\x00').toNat = 0 := rfl
  rw [h0]
  omega

theorem sorted_getD_lt (keys : List Char) (hs : List.Pairwise (· < ·) keys)
    (i j : Nat) (hij : i < j) (hj : j < keys.length) :
    keys.getD i '\x00' < keys.getD j '\x00' := by
  have hi : i < keys.length := lt_trans hij hj
  rw [List.getD_eq_getElem keys _ hi, List.getD_eq_getElem keys _ hj]
  exact List.pairwise_iff_getElem.mp hs i j hi hj hij

/-- Correctness of the binary-search loop on a strictly sorted key list:
with sufficient fuel and interval invariants (everything left of the window
is below the probe, everything right of it is above), an `ok` result is an
exact hit and an `error` result is the insertion point, i.e. everything
before it is strictly below the probe and everything from it on is
strictly above. -/
theorem binSearchGo_spec (keys : List Char) (c : Char)
    (hs : List.Pairwise (· < ·) keys) :
    ∀ fuel left right, right ≤ keys.length → left ≤ right →
    right - left ≤ fuel →
    (∀ j, j < left → keys.getD j '\x00' < c) →
    (∀ j, right ≤ j → j < keys.length → c < keys.getD j '\x00') →
    (match binSearchGo keys c fuel left right with
     | .ok i => i < keys.length ∧ keys.getD i '\x00' = c
     | .error i => i ≤ keys.length ∧ (∀ j, j < i → keys.getD j '\x00' < c) ∧
         (∀ j, i ≤ j → j < keys.length → c < keys.getD j '\x00')) := by
  intro fuel
  induction fuel with
  | zero =>
    intro left right hr hlr hfuel hlo hhi
    have heq : left = right := by omega
    subst heq
    rw [binSearchGo]
    exact ⟨by omega, hlo, fun j hj hjl => hhi j hj hjl⟩
  | succ fuel ih =>
    intro left right hr hlr hfuel hlo hhi
    simp only [binSearchGo]
    by_cases h : left < right
    · rw [if_pos h]
      have hmidlt : left + (right - left) / 2 < right := by omega
      have hmidge : left ≤ left + (right - left) / 2 := by omega
      have hmidlen : left + (right - left) / 2 < keys.length := by omega
      by_cases h1 : keys.getD (left + (right - left) / 2) '\x00' < c
      · rw [if_pos h1]
        refine ih (left + (right - left) / 2 + 1) right hr (by omega) (by omega)
          ?_ hhi
        intro j hj
        rcases Nat.lt_or_ge j (left + (right - left) / 2) with hj2 | hj2
        · exact lt_trans (sorted_getD_lt keys hs j _ hj2 hmidlen) h1
        · have : j = left + (right - left) / 2 := by omega
          rw [this]
          exact h1
      · rw [if_neg h1]
        by_cases h2 : c < keys.getD (left + (right - left) / 2) '\x00'
        · rw [if_pos h2]
          refine ih left (left + (right - left) / 2) (by omega) (by omega)
            (by omega) hlo ?_
          intro j hj hjl
          rcases Nat.lt_or_ge (left + (right - left) / 2) j with hj2 | hj2
          · exact lt_trans h2 (sorted_getD_lt keys hs _ j hj2 hjl)
          · have : j = left + (right - left) / 2 := by omega
            rw [this]
            exact h2
        · rw [if_neg h2]
          exact ⟨hmidlen, le_antisymm (not_lt.mp h2) (not_lt.mp h1)⟩
    · rw [if_neg h]
      have heq : left = right := by omega
      subst heq
      exact ⟨by omega, hlo, fun j hj hjl => hhi j hj hjl⟩

theorem bases_length (t : Tables) : (bases t).length = t.TABLE.length := by
  simp [bases]

theorem bases_getD (t : Tables) (i : Nat) (hi : i < t.TABLE.length) :
    (bases t).getD i '\x00' = (t.TABLE.getD i ('\x00', 0)).1 := by
  have hi' : i < (bases t).length := by rw [bases_length]; exact hi
  rw [List.getD_eq_getElem _ _ hi', List.getD_eq_getElem _ _ hi]
  simp [bases]

/-- Reduction of `lookupAt` at an in-range index whose base is at most the
probe, assuming the selected entry index does not overflow `u16`: the
wrapping arithmetic of the source coincides with the plain
`offset + (codepoint - base)` of the specification. -/
theorem lookupAt_eq_unwrapped (t : Tables) (c : Char) (idx : Nat)
    (hidx : idx < t.TABLE.length)
    (hble : (t.TABLE.getD idx ('\x00', 0)).1 ≤ c)
    (hnw : SINGLE_MARKER &&& (t.TABLE.getD idx ('\x00', 0)).2 = 0 →
      (32767 &&& (t.TABLE.getD idx ('\x00', 0)).2) +
        (c.toNat - (t.TABLE.getD idx ('\x00', 0)).1.toNat) < 65536) :
    lookupAt t c idx =
      (if SINGLE_MARKER &&& (t.TABLE.getD idx ('\x00', 0)).2 ≠ 0 then
        t.MAPPING_TABLE.get? (32767 &&& (t.TABLE.getD idx ('\x00', 0)).2)
      else
        t.MAPPING_TABLE.get? ((32767 &&& (t.TABLE.getD idx ('\x00', 0)).2) +
          (c.toNat - (t.TABLE.getD idx ('\x00', 0)).1.toNat))) := by
  have hget : t.TABLE.get? idx = some (t.TABLE.getD idx ('\x00', 0)) := by
    rw [List.get?_eq_getElem?, List.getElem?_eq_getElem hidx,
      List.getD_eq_getElem _ _ hidx]
  by_cases hflag : SINGLE_MARKER &&& (t.TABLE.getD idx ('\x00', 0)).2 ≠ 0
  · rw [if_pos hflag]
    simp only [lookupAt, hget, Option.bind_eq_bind, Option.some_bind]
    rw [if_pos hflag]
  · rw [if_neg hflag]
    simp only [lookupAt, hget, Option.bind_eq_bind, Option.some_bind]
    rw [if_neg hflag]
    have harith :
        ((32767 &&& (t.TABLE.getD idx ('\x00', 0)).2) +
          (c.toNat % 65536 + 65536 -
            (t.TABLE.getD idx ('\x00', 0)).1.toNat % 65536) % 65536) % 65536 =
        (32767 &&& (t.TABLE.getD idx ('\x00', 0)).2) +
          (c.toNat - (t.TABLE.getD idx ('\x00', 0)).1.toNat) := by
      have hb : (t.TABLE.getD idx ('\x00', 0)).1.toNat ≤ c.toNat :=
        (char_le_iff _ _).mp hble
      have hw := hnw (by simpa using hflag)
      omega
    rw [harith]

/-- C5: for every codepoint, under the table invariants (strictly ascending
bases, coverage starting at codepoint 0, and no `u16` overflow of the
selected entry index), `find_char` locates the range entry with the
greatest base less than or equal to the codepoint (an exact binary-search
hit is used directly, a would-insert-before result is decremented by one),
and selects the mapping entry at index `offset` when the single-mapping
flag (top bit of the packed value) is set, and at
`offset + (codepoint - base)` when it is clear. -/
theorem find_char_locates_greatest_base (t : Tables) (c : Char)
    (hs : List.Pairwise (· < ·) (bases t))
    (hne : t.TABLE ≠ [])
    (h0 : (bases t).getD 0 '\x00' = '\x00')
    (hnw : ∀ i, i < t.TABLE.length →
      (t.TABLE.getD i ('\x00', 0)).1 ≤ c →
      (∀ j, j < t.TABLE.length → (t.TABLE.getD j ('\x00', 0)).1 ≤ c → j ≤ i) →
      SINGLE_MARKER &&& (t.TABLE.getD i ('\x00', 0)).2 = 0 →
      (32767 &&& (t.TABLE.getD i ('\x00', 0)).2) +
        (c.toNat - (t.TABLE.getD i ('\x00', 0)).1.toNat) < 65536) :
    ∃ idx, idx < t.TABLE.length ∧
      (t.TABLE.getD idx ('\x00', 0)).1 ≤ c ∧
      (∀ j, j < t.TABLE.length → (t.TABLE.getD j ('\x00', 0)).1 ≤ c → j ≤ idx) ∧
      find_char t c =
        (if SINGLE_MARKER &&& (t.TABLE.getD idx ('\x00', 0)).2 ≠ 0 then
          t.MAPPING_TABLE.get? (32767 &&& (t.TABLE.getD idx ('\x00', 0)).2)
         else
          t.MAPPING_TABLE.get? ((32767 &&& (t.TABLE.getD idx ('\x00', 0)).2) +
            (c.toNat - (t.TABLE.getD idx ('\x00', 0)).1.toNat))) := by
  have hlen0 : 0 < t.TABLE.length := List.length_pos.mpr hne
  have hbl : (bases t).length = t.TABLE.length := bases_length t
  have hspec : (match binarySearchBases t c with
     | .ok i => i < (bases t).length ∧ (bases t).getD i '\x00' = c
     | .error i => i ≤ (bases t).length ∧
         (∀ j, j < i → (bases t).getD j '\x00' < c) ∧
         (∀ j, i ≤ j → j < (bases t).length → c < (bases t).getD j '\x00')) :=
    binSearchGo_spec (bases t) c hs (bases t).length 0 (bases t).length
      le_rfl (Nat.zero_le _) (by omega)
      (fun j hj => absurd hj (Nat.not_lt_zero j))
      (fun j hj hjl => absurd (lt_of_le_of_lt hj hjl) (lt_irrefl _))
  rcases hbs : binarySearchBases t c with i | i
  · -- Err(i): would-insert-before; `find_char` uses index `i - 1`.
    rw [hbs] at hspec
    simp only at hspec
    obtain ⟨hile, hlow, hup⟩ := hspec
    cases i with
    | zero =>
      have hc0 : c < (bases t).getD 0 '\x00' := hup 0 le_rfl (by omega)
      rw [h0] at hc0
      exact absurd hc0 (not_char_lt_zero c)
    | succ i =>
      have hilen' : i < t.TABLE.length := by omega
      have hbase : (t.TABLE.getD i ('\x00', 0)).1 < c := by
        rw [← bases_getD t i hilen']
        exact hlow i (Nat.lt_succ_self i)
      have hgreat : ∀ j, j < t.TABLE.length →
          (t.TABLE.getD j ('\x00', 0)).1 ≤ c → j ≤ i := by
        intro j hj hjle
        by_contra hji
        have hij : i + 1 ≤ j := by omega
        have hcj := hup j hij (by omega)
        rw [bases_getD t j hj] at hcj
        exact absurd (lt_of_lt_of_le hcj hjle) (lt_irrefl c)
      refine ⟨i, hilen', le_of_lt hbase, hgreat, ?_⟩
      have hfc : find_char t c = lookupAt t c i := by
        simp only [find_char, hbs]
      rw [hfc]
      exact lookupAt_eq_unwrapped t c i hilen' (le_of_lt hbase)
        (hnw i hilen' (le_of_lt hbase) hgreat)
  · -- Ok(i): exact hit on a base codepoint.
    rw [hbs] at hspec
    simp only at hspec
    obtain ⟨hilen, hieq⟩ := hspec
    have hilen' : i < t.TABLE.length := by omega
    have hbase : (t.TABLE.getD i ('\x00', 0)).1 = c := by
      rw [← bases_getD t i hilen']
      exact hieq
    have hgreat : ∀ j, j < t.TABLE.length →
        (t.TABLE.getD j ('\x00', 0)).1 ≤ c → j ≤ i := by
      intro j hj hjle
      by_contra hji
      have hij : i < j := by omega
      have hlt : (bases t).getD i '\x00' < (bases t).getD j '\x00' :=
        sorted_getD_lt (bases t) hs i j hij (by omega)
      rw [hieq, bases_getD t j hj] at hlt
      exact absurd (lt_of_lt_of_le hlt hjle) (lt_irrefl c)
    refine ⟨i, hilen', le_of_eq hbase, hgreat, ?_⟩
    have hfc : find_char t c = lookupAt t c i := by
      simp only [find_char, hbs]
    rw [hfc]
    exact lookupAt_eq_unwrapped t c i hilen' (le_of_eq hbase)
      (hnw i hilen' (le_of_eq hbase) hgreat)

theorem char_toNat_lt (c : Char) : c.toNat < 1114112 := by
  have hh : c.toNat = c.val.toNat := rfl
  rcases c.valid with h | h
  · omega
  · omega

theorem get_isSome_of_lt (l : List Mapping) (n : Nat) (h : n < l.length) :
    (l.get? n).isSome := by
  rw [List.get?_eq_getElem?, List.getElem?_eq_getElem h]
  rfl

/-- Width of the `i`-th range of the index: the distance from its base to
the next range's base, or to the end of the Unicode codepoint space for
the last range. -/
def rangeWidth (t : Tables) (i : Nat) : Nat :=
  match (bases t).get? (i + 1) with
  | some b => b.toNat - ((bases t).getD i '\x00').toNat
  | none => 1114112 - ((bases t).getD i '\x00').toNat

theorem rangeWidth_last (t : Tables) (i : Nat)
    (h : (bases t).get? (i + 1) = none) :
    rangeWidth t i = 1114112 - ((bases t).getD i '\x00').toNat := by
  simp only [rangeWidth, h]

theorem rangeWidth_next (t : Tables) (i : Nat) (b : Char)
    (h : (bases t).get? (i + 1) = some b) :
    rangeWidth t i = b.toNat - ((bases t).getD i '\x00').toNat := by
  simp only [rangeWidth, h]

theorem dropBytes_append (pre rest : List Char) :
    dropBytes (pre ++ rest) (utf8Len pre) = some rest := by
  induction pre with
  | nil => simp [utf8Len, dropBytes]
  | cons c pre ih =>
    have hsz : 0 < c.utf8Size := Char.utf8Size_pos c
    have hlen : utf8Len (c :: pre) = c.utf8Size + utf8Len pre := by
      simp [utf8Len]
    obtain ⟨k, hk⟩ : ∃ k, utf8Len (c :: pre) = k + 1 :=
      ⟨utf8Len (c :: pre) - 1, by omega⟩
    rw [List.cons_append, hk]
    show (if c.utf8Size ≤ k + 1 then
      dropBytes (pre ++ rest) (k + 1 - c.utf8Size) else none) = some rest
    rw [if_pos (by omega)]
    have harg : k + 1 - c.utf8Size = utf8Len pre := by omega
    rw [harg]
    exact ih

theorem takeBytes_append (mid post : List Char) :
    takeBytes (mid ++ post) (utf8Len mid) = some mid := by
  induction mid with
  | nil => simp [utf8Len, takeBytes]
  | cons c mid ih =>
    have hsz : 0 < c.utf8Size := Char.utf8Size_pos c
    have hlen : utf8Len (c :: mid) = c.utf8Size + utf8Len mid := by
      simp [utf8Len]
    obtain ⟨k, hk⟩ : ∃ k, utf8Len (c :: mid) = k + 1 :=
      ⟨utf8Len (c :: mid) - 1, by omega⟩
    rw [List.cons_append, hk]
    show (if c.utf8Size ≤ k + 1 then
      (takeBytes (mid ++ post) (k + 1 - c.utf8Size)).map (c :: ·) else none) =
      some (c :: mid)
    rw [if_pos (by omega)]
    have harg : k + 1 - c.utf8Size = utf8Len mid := by omega
    rw [harg, ih]
    rfl

theorem decode_slice_of_boundaries (t : Tables) (slice : StringTableSlice)
    (pre mid post : List Char)
    (hsplit : t.STRING_TABLE = pre ++ (mid ++ post))
    (hstart : utf8Len pre = (slice.byte_start_hi <<< 8) ||| slice.byte_start_lo)
    (hlen : utf8Len mid = slice.byte_len) :
    decode_slice t slice = some mid := by
  simp only [decode_slice]
  rw [hsplit, ← hstart, dropBytes_append, Option.some_bind, ← hlen,
    takeBytes_append]

/-- C6: under the table-construction invariants (strictly ascending range
index covering the codepoint space from codepoint 0, every selected
mapping-entry index within the mapping-entry array and `u16` range, and
the replacement-text reference lying within the string table on character
boundaries), `find_char` and `decode_slice` are total: for every `char`
the lookup returns a defined disposition with no panic and no
out-of-range access, and the slice decodes to its referenced text. -/
theorem lookup_and_decode_total (t : Tables) (c : Char)
    (slice : StringTableSlice) (pre mid post : List Char)
    (hs : List.Pairwise (· < ·) (bases t))
    (hne : t.TABLE ≠ [])
    (h0 : (bases t).getD 0 '\x00' = '\x00')
    (hentries : ∀ i, i < t.TABLE.length →
      if SINGLE_MARKER &&& (t.TABLE.getD i ('\x00', 0)).2 ≠ 0 then
        32767 &&& (t.TABLE.getD i ('\x00', 0)).2 < t.MAPPING_TABLE.length
      else
        (32767 &&& (t.TABLE.getD i ('\x00', 0)).2) + rangeWidth t i ≤
            t.MAPPING_TABLE.length ∧
          (32767 &&& (t.TABLE.getD i ('\x00', 0)).2) + rangeWidth t i ≤ 65536)
    (hsplit : t.STRING_TABLE = pre ++ (mid ++ post))
    (hstart : utf8Len pre = (slice.byte_start_hi <<< 8) ||| slice.byte_start_lo)
    (hlen : utf8Len mid = slice.byte_len) :
    (find_char t c).isSome ∧ decode_slice t slice = some mid := by
  have hbl : (bases t).length = t.TABLE.length := bases_length t
  have hwidth : ∀ i, i < t.TABLE.length →
      (t.TABLE.getD i ('\x00', 0)).1 ≤ c →
      (∀ j, j < t.TABLE.length → (t.TABLE.getD j ('\x00', 0)).1 ≤ c → j ≤ i) →
      c.toNat - (t.TABLE.getD i ('\x00', 0)).1.toNat < rangeWidth t i := by
    intro i hi hble hgreat
    have hble' := (char_le_iff _ _).mp hble
    rcases hnext : (bases t).get? (i + 1) with _ | b
    · rw [rangeWidth_last t i hnext, bases_getD t i hi]
      have hc := char_toNat_lt c
      omega
    · have hlt : i + 1 < (bases t).length := by
        by_contra hcon
        rw [List.get?_eq_getElem?, List.getElem?_eq_none (by omega)] at hnext
        exact Option.noConfusion hnext
      have hlt' : i + 1 < t.TABLE.length := by omega
      have hb : b = (bases t).getD (i + 1) '\x00' := by
        rw [List.get?_eq_getElem?, List.getElem?_eq_getElem hlt] at hnext
        rw [List.getD_eq_getElem _ _ hlt]
        exact (Option.some.injEq _ _ ▸ hnext).symm
      have hnotle : ¬ ((t.TABLE.getD (i + 1) ('\x00', 0)).1 ≤ c) := by
        intro hcon
        exact absurd (hgreat (i + 1) hlt' hcon) (by omega)
      have hclt : c < (t.TABLE.getD (i + 1) ('\x00', 0)).1 := not_le.mp hnotle
      have h1 := (char_lt_iff _ _).mp hclt
      rw [rangeWidth_next t i b hnext, hb, bases_getD t i hi,
        bases_getD t (i + 1) hlt']
      omega
  have hnw : ∀ i, i < t.TABLE.length →
      (t.TABLE.getD i ('\x00', 0)).1 ≤ c →
      (∀ j, j < t.TABLE.length → (t.TABLE.getD j ('\x00', 0)).1 ≤ c → j ≤ i) →
      SINGLE_MARKER &&& (t.TABLE.getD i ('\x00', 0)).2 = 0 →
      (32767 &&& (t.TABLE.getD i ('\x00', 0)).2) +
        (c.toNat - (t.TABLE.getD i ('\x00', 0)).1.toNat) < 65536 := by
    intro i hi hblei hgreati hflag
    have hent := hentries i hi
    rw [if_neg (by simpa using hflag)] at hent
    have hw := hwidth i hi hblei hgreati
    omega
  constructor
  · obtain ⟨idx, hidx, hble, hgreat, heq⟩ :=
      find_char_locates_greatest_base t c hs hne h0 hnw
    by_cases hflag : SINGLE_MARKER &&& (t.TABLE.getD idx ('\x00', 0)).2 ≠ 0
    · rw [heq, if_pos hflag]
      have hent := hentries idx hidx
      rw [if_pos hflag] at hent
      exact get_isSome_of_lt _ _ hent
    · rw [heq, if_neg hflag]
      have hent := hentries idx hidx
      rw [if_neg hflag] at hent
      obtain ⟨h1, -⟩ := hent
      have hw := hwidth idx hidx hble hgreat
      exact get_isSome_of_lt _ _ (by omega)
  · exact decode_slice_of_boundaries t slice pre mid post hsplit hstart hlen

/-- Modelled from the spec: the generated table data
(`uts46_mapping_table.rs`) is a build-time artifact absent from the crate
source.  This instance has the structure the spec prescribes (a sorted
range index covering the codepoint space from codepoint 0, the
single-mapping flag in the top bit of the packed value, offsets into the
mapping-entry array, a shared string table) and realizes the spec sentence
that lookup of the fast-path codepoints yields Valid, with the ASCII
uppercase range mapped into the string table. -/
def specTables : Tables where
  TABLE :=
    [('\x00', 32768 + 0),
     ('-', 32768 + 1),
     ('/', 32768 + 0),
     ('0', 32768 + 1),
     (':', 32768 + 0),
     ('A', 32768 + 2),
     ('\x5b', 32768 + 0),
     ('a', 32768 + 1),
     ('\x7b', 32768 + 0)]
  MAPPING_TABLE := [.Disallowed, .Valid, .Mapped ⟨0, 0, 1⟩]
  STRING_TABLE := ['x']

/-- The fast-path codepoint set, as an explicit enumeration. -/
def fastChars : List Char :=
  ['.', '-'] ++ (List.range' 48 10).map Char.ofNat ++
    (List.range' 97 26).map Char.ofNat

theorem fastPath_mem (c : Char) (h : fastPath c = true) : c ∈ fastChars := by
  have h48 : ('0').toNat = 48 := rfl
  have h57 : ('9').toNat = 57 := rfl
  have h97 : ('a').toNat = 97 := rfl
  have h122 : ('z').toNat = 122 := rfl
  simp only [fastPath, Bool.or_eq_true, Bool.and_eq_true, decide_eq_true_eq] at h
  rcases h with ((h | h) | ⟨h1, h2⟩) | ⟨h1, h2⟩
  · subst h
    decide
  · subst h
    decide
  · have hn1 := (char_le_iff _ _).mp h1
    have hn2 := (char_le_iff _ _).mp h2
    have hmem : c.toNat ∈ List.range' 97 26 :=
      List.mem_range'_1.mpr ⟨by omega, by omega⟩
    have hc : c ∈ (List.range' 97 26).map Char.ofNat :=
      List.mem_map.mpr ⟨c.toNat, hmem, Char.ofNat_toNat c⟩
    simp only [fastChars, List.mem_append]
    tauto
  · have hn1 := (char_le_iff _ _).mp h1
    have hn2 := (char_le_iff _ _).mp h2
    have hmem : c.toNat ∈ List.range' 48 10 :=
      List.mem_range'_1.mpr ⟨by omega, by omega⟩
    have hc : c ∈ (List.range' 48 10).map Char.ofNat :=
      List.mem_map.mpr ⟨c.toNat, hmem, Char.ofNat_toNat c⟩
    simp only [fastChars, List.mem_append]
    tauto

/-- C1: every fast-path codepoint (`.`, `-`, `0`-`9`, `a`-`z`) is emitted
unchanged by the `Mapper` without consulting the lookup table (the output
step is identical for every lookup function), and `find_char` on the
(spec-modelled) table yields the Valid disposition on those codepoints, so
the fast path has no semantic difference from going through the table. -/
theorem fast_path_valid_and_unchanged :
    (∀ (lookup : Char → Disposition) (iae : Bool) (c : Char) (cs : List Char),
      fastPath c = true →
      mapperOutput lookup iae (c :: cs) = c :: mapperOutput lookup iae cs) ∧
    (∀ c : Char, fastPath c = true →
      find_char specTables c = some Mapping.Valid) := by
  constructor
  · intro lookup iae c cs hf
    simp only [mapperOutput_def]
    exact Mapper.run_fast lookup iae c cs hf
  · intro c hf
    have hall : ∀ x ∈ fastChars, find_char specTables x = some Mapping.Valid := by
      decide
    exact hall c (fastPath_mem c hf)

theorem fast_path_witness :
    mapperOutput exLookup true ['a', '+'] = 'a' :: mapperOutput exLookup true ['+'] ∧
    find_char specTables '-' = some Mapping.Valid :=
  ⟨fast_path_valid_and_unchanged.1 exLookup true 'a' ['+'] (by decide),
   fast_path_valid_and_unchanged.2 '-' (by decide)⟩

theorem find_char_locates_witness :
    ∃ idx, idx < specTables.TABLE.length ∧
      (specTables.TABLE.getD idx ('\x00', 0)).1 ≤ '5' ∧
      (∀ j, j < specTables.TABLE.length →
        (specTables.TABLE.getD j ('\x00', 0)).1 ≤ '5' → j ≤ idx) ∧
      find_char specTables '5' =
        (if SINGLE_MARKER &&& (specTables.TABLE.getD idx ('\x00', 0)).2 ≠ 0 then
          specTables.MAPPING_TABLE.get?
            (32767 &&& (specTables.TABLE.getD idx ('\x00', 0)).2)
         else
          specTables.MAPPING_TABLE.get?
            ((32767 &&& (specTables.TABLE.getD idx ('\x00', 0)).2) +
              (('5').toNat - (specTables.TABLE.getD idx ('\x00', 0)).1.toNat))) :=
  find_char_locates_greatest_base specTables '5'
    (by decide) (by decide) (by decide) (by decide)

theorem lookup_and_decode_total_witness :
    (find_char specTables 'Ω').isSome ∧
      decode_slice specTables ⟨0, 0, 1⟩ = some ['x'] :=
  lookup_and_decode_total specTables 'Ω' ⟨0, 0, 1⟩ [] ['x'] []
    (by decide) (by decide) (by decide) (by decide) rfl (by decide) (by decide)

/-- Modelled from the spec: the `unicode_joining_type` crate is an external
dependency whose `JoiningType` enum is a small fixed category set
(non-joining, transparent, right-, left-, dual-joining, join-causing).
Only the distinctness of the enum discriminants matters for the mask layer
built on top of it in `src/lib.rs`. -/
inductive JoiningType where
  | NonJoining : JoiningType
  | Transparent : JoiningType
  | RightJoining : JoiningType
  | LeftJoining : JoiningType
  | DualJoining : JoiningType
  | JoinCausing : JoiningType
deriving DecidableEq, Repr

/-- The enum discriminant (`jt as u32` in `joining_type_to_mask`). -/
def JoiningType.discr : JoiningType → Nat
  | .NonJoining => 0
  | .Transparent => 1
  | .RightJoining => 2
  | .LeftJoining => 3
  | .DualJoining => 4
  | .JoinCausing => 5

/-- `const fn joining_type_to_mask(jt: JoiningType) -> u32` from
`src/lib.rs`: `1u32 << (jt as u32)`, a one-hot encoding (the shift is at
most 5, so the `u32` reduction is the identity). -/
def joining_type_to_mask (jt : JoiningType) : Nat :=
  (1 <<< jt.discr) % 4294967296

/-- `pub struct JoiningTypeMask(u32)` from `src/lib.rs`. -/
structure JoiningTypeMask where
  mask : Nat
deriving DecidableEq, Repr

/-- `JoiningType::to_mask` from `src/lib.rs`. -/
def JoiningType.to_mask (jt : JoiningType) : JoiningTypeMask :=
  ⟨joining_type_to_mask jt⟩

/-- `LEFT_OR_DUAL_JOINING_MASK` from `src/lib.rs`. -/
def LEFT_OR_DUAL_JOINING_MASK : JoiningTypeMask :=
  ⟨joining_type_to_mask .LeftJoining ||| joining_type_to_mask .DualJoining⟩

/-- `RIGHT_OR_DUAL_JOINING_MASK` from `src/lib.rs`. -/
def RIGHT_OR_DUAL_JOINING_MASK : JoiningTypeMask :=
  ⟨joining_type_to_mask .RightJoining ||| joining_type_to_mask .DualJoining⟩

/-- `JoiningTypeMask::intersects` from `src/lib.rs`:
`self.0 & other.0 != 0`. -/
def JoiningTypeMask.intersects (a b : JoiningTypeMask) : Bool :=
  a.mask &&& b.mask ≠ 0

/-- C9: `intersects` returns true iff the two masks share at least one
category bit; in particular the left-or-dual mask intersects the one-hot
mask of LeftJoining and does not intersect the one-hot mask of
RightJoining. -/
theorem intersects_iff_shared_bit :
    (∀ a b : JoiningTypeMask, a.intersects b = true ↔
      ∃ i, a.mask.testBit i ∧ b.mask.testBit i) ∧
    LEFT_OR_DUAL_JOINING_MASK.intersects
      (JoiningType.to_mask .LeftJoining) = true ∧
    LEFT_OR_DUAL_JOINING_MASK.intersects
      (JoiningType.to_mask .RightJoining) = false := by
  refine ⟨?_, by decide, by decide⟩
  intro a b
  simp only [JoiningTypeMask.intersects, ne_eq, decide_eq_true_eq]
  constructor
  · intro h
    by_contra hno
    push_neg at hno
    apply h
    apply Nat.eq_of_testBit_eq
    intro i
    rw [Nat.testBit_and, Nat.zero_testBit]
    have hni := hno i
    cases hx : a.mask.testBit i <;> cases hy : b.mask.testBit i <;>
      simp_all
  · rintro ⟨i, h1, h2⟩ h0
    have hbit : (a.mask &&& b.mask).testBit i = true := by
      rw [Nat.testBit_and, h1, h2]
      rfl
    rw [h0, Nat.zero_testBit] at hbit
    exact Bool.noConfusion hbit

theorem intersects_iff_shared_bit_witness :
    RIGHT_OR_DUAL_JOINING_MASK.intersects
      (JoiningType.to_mask .DualJoining) = true ↔
    ∃ i, RIGHT_OR_DUAL_JOINING_MASK.mask.testBit i ∧
      (JoiningType.to_mask .DualJoining).mask.testBit i :=
  intersects_iff_shared_bit.1 RIGHT_OR_DUAL_JOINING_MASK
    (JoiningType.to_mask .DualJoining)
